import Mathlib

/-!
Verification development for the postbis aligned amino-acid sequence type
(`src/include/types/aligned_aa_sequence.h`).

The repository ships only the header (declarations); every operation below is
therefore modelled from the specification.  Bytes are `Nat` (values `0..255`),
bit streams are `List Bool` (MSB-first), machine integers are `Int`/`Nat`.
The spec pins down prefix-decodability and totality of the code tables but not
the concrete code words, so the tables below are concrete prefix-free tables
honouring the spec's constraints (gap gets the shortest code).  The swizzle and
the substring index are access/compression accelerators that the spec states do
not affect decoded content ("An implementation MAY omit swizzling; doing so
changes compression ratio but not correctness"); they are not modelled.
-/

/-- Modelled from the spec: the type-modifier pair of
`PB_AlignedAaSequenceTypMod` — `case_sensitive` is a 1-bit field and
`restricting_alphabet` a 2-bit field, so the representable values are
exactly `Fin 2` and `Fin 4`. -/
structure PB_AlignedAaSequenceTypMod where
  case_sensitive : Fin 2
  restricting_alphabet : Fin 4
deriving DecidableEq, Repr

def PB_ALIGNED_AA_TYPMOD_CASE_INSENSITIVE : Nat := 0
def PB_ALIGNED_AA_TYPMOD_CASE_SENSITIVE : Nat := 1
def PB_ALIGNED_AA_TYPMOD_IUPAC : Nat := 0
def PB_ALIGNED_AA_TYPMOD_ASCII : Nat := 1

/-- Modelled from the spec: `aligned_aa_sequence_typmod_to_int`, the wire form
`(cs & 1) | ((ra & 3) << 1)` of the modifier pair, as a C `int`. -/
def aligned_aa_sequence_typmod_to_int (tm : PB_AlignedAaSequenceTypMod) : Int :=
  (((tm.case_sensitive.val &&& 1) ||| ((tm.restricting_alphabet.val &&& 3) <<< 1) : Nat) : Int)

/-- Modelled from the spec: `int_to_aligned_aa_sequence_typmod` — the sentinel
`-1` means "no modifier supplied" and is treated as `{case_insensitive, IUPAC}`;
otherwise the two fields are unpacked from the integer. -/
def int_to_aligned_aa_sequence_typmod (t : Int) : PB_AlignedAaSequenceTypMod :=
  if t = -1 then ⟨0, 0⟩
  else ⟨⟨t.toNat &&& 1, Nat.lt_succ_of_le Nat.and_le_right⟩,
        ⟨(t.toNat >>> 1) &&& 3, Nat.lt_succ_of_le Nat.and_le_right⟩⟩

/-- Upper-case folding of a byte: lower-case ASCII letters map to their
upper-case counterpart, all other bytes are unchanged. -/
def foldByte (b : Nat) : Nat :=
  if 97 ≤ b ∧ b ≤ 122 then b - 32 else b

/-- The 24 upper-case letters of the IUPAC amino-acid alphabet used by the
aligned type: the 20 standard amino acids plus the ambiguity codes B, J, Z, X
(every upper-case letter except O and U).  The gap symbol `-` (byte 45) is kept
separately. -/
def aaLetters : List Nat :=
  [65, 66, 67, 68, 69, 70, 71, 72, 73, 74, 75, 76, 77, 78,
   80, 81, 82, 83, 84, 86, 87, 88, 89, 90]

/-- Membership of a byte in the IUPAC-AA-plus-gap restricting alphabet
(case-insensitively: both cases of every letter are accepted). -/
def isIupacAaByte (b : Nat) : Bool :=
  decide (foldByte b = 45 ∨ foldByte b ∈ aaLetters)

/-- Membership of a byte in the printable-ASCII restricting alphabet. -/
def isPrintableByte (b : Nat) : Bool :=
  decide (32 ≤ b ∧ b ≤ 126)

/-- Modelled from the spec: which bytes the restricting alphabet selected by a
type modifier accepts — the IUPAC-AA+gap set when `restricting_alphabet` is
`IUPAC`, any printable byte when it is `ASCII`. -/
def acceptsByte (tm : PB_AlignedAaSequenceTypMod) (b : Nat) : Bool :=
  if tm.restricting_alphabet.val = PB_ALIGNED_AA_TYPMOD_ASCII then isPrintableByte b
  else isIupacAaByte b

/-- The `w`-bit MSB-first binary representation of `n`. -/
def natBits (w n : Nat) : List Bool :=
  (List.range w).map fun i => n.testBit (w - 1 - i)

/-- Modelled from the spec: a code table (`PB_CodeSet`) — an ordered list of
entries `(symbol_byte, code_word)`; code words are bit lists, MSB-first. -/
structure PB_CodeSet where
  entries : List (Nat × List Bool)
deriving DecidableEq

/-- The code word a table assigns to a symbol byte, if any. -/
def findCode (cs : PB_CodeSet) (b : Nat) : Option (List Bool) :=
  (cs.entries.find? fun e => e.1 == b).map Prod.snd

/-- Modelled from the spec: the bit-packed encoder of the symbol coder —
consumes symbols in order, emits their MSB-first codes; `none` when a symbol is
not in the table. -/
def encodeSymbols (cs : PB_CodeSet) : List Nat → Option (List Bool)
  | [] => some []
  | b :: rest =>
    match findCode cs b, encodeSymbols cs rest with
    | some c, some r => some (c ++ r)
    | _, _ => none

/-- Decode a single symbol from the front of a bit stream: the first table
entry whose code word is a prefix of the stream, together with the remaining
bits. -/
def decodeOne (cs : PB_CodeSet) (bits : List Bool) : Option (Nat × List Bool) :=
  (cs.entries.find? fun e => e.2.isPrefixOf bits).map
    fun e => (e.1, bits.drop e.2.length)

/-- Modelled from the spec: the streaming decoder of the symbol coder — decode
exactly `n` symbols from the front of a bit stream, returning them together
with the unconsumed remainder of the stream. -/
def decodeSymbols (cs : PB_CodeSet) : Nat → List Bool → Option (List Nat × List Bool)
  | 0, bits => some ([], bits)
  | n + 1, bits =>
    (decodeOne cs bits).bind fun p =>
      (decodeSymbols cs n p.2).map fun q => (p.1 :: q.1, q.2)

/-- A pair of table entries is compatible when the symbols differ and neither
code word is a prefix of the other (this also rules out equal code words). -/
def okPair (a b : Nat × List Bool) : Prop :=
  a.1 ≠ b.1 ∧ a.2.isPrefixOf b.2 = false ∧ b.2.isPrefixOf a.2 = false

instance (a b : Nat × List Bool) : Decidable (okPair a b) := by
  unfold okPair; infer_instance

/-- Modelled from the spec: the code-table invariants — distinct symbols and a
prefix code (no code word is a prefix of another). -/
def goodCodeSet (cs : PB_CodeSet) : Prop :=
  cs.entries.Pairwise okPair

instance (cs : PB_CodeSet) : Decidable (goodCodeSet cs) := by
  unfold goodCodeSet; infer_instance

/-- Modelled from the spec: the fixed aligned-AA code table with id 0 — IUPAC,
case-insensitive.  The gap symbol `-` dominates aligned data and receives the
shortest code (2 bits); the 24 letters receive 5-bit codes. -/
def aaCodeCI : PB_CodeSet :=
  ⟨(45, natBits 2 0) :: aaLetters.enum.map fun p => (p.2, natBits 5 (8 + p.1))⟩

/-- Modelled from the spec: the fixed aligned-AA code table with id 1 — IUPAC,
case-sensitive.  Gap keeps the shortest code; upper- and lower-case letters
receive distinct 6-bit codes. -/
def aaCodeCS : PB_CodeSet :=
  ⟨(45, natBits 2 0) ::
    (aaLetters.enum.map fun p => (p.2, natBits 6 (16 + p.1)) ) ++
    (aaLetters.enum.map fun p => (p.2 + 32, natBits 6 (40 + p.1)))⟩

/-- Modelled from the spec: the code table used under the ASCII restricting
alphabet — a prefix code total over the printable bytes (7-bit codes). -/
def asciiCode : PB_CodeSet :=
  ⟨(List.range 95).map fun i => (32 + i, natBits 7 i)⟩

/-- Modelled from the spec: code-table selection of the codec driver — the
table id stored in the blob header.  Ids 0/1 are the fixed IUPAC tables
(case-insensitive / case-sensitive), ids 2/3 the ASCII table (the low bit
still records case sensitivity). -/
def tableIdOf (tm : PB_AlignedAaSequenceTypMod) : Nat :=
  (if tm.restricting_alphabet.val = PB_ALIGNED_AA_TYPMOD_ASCII then 2 else 0)
    + tm.case_sensitive.val

/-- The code table registered under a table id. -/
def tableOfId (id : Nat) : PB_CodeSet :=
  if id = 0 then aaCodeCI else if id = 1 then aaCodeCS else asciiCode

/-- Modelled from the spec: `get_fixed_aligned_aa_code` — id 0 is the AA IUPAC
code, id 1 the case-sensitive AA IUPAC code. -/
def get_fixed_aligned_aa_code (fixed_code_id : Nat) : PB_CodeSet :=
  if fixed_code_id = 0 then aaCodeCI else aaCodeCS

/-- Modelled from the spec: the error kinds of the library. -/
inductive PB_Error where
  | UnknownSymbol (b : Nat) (offset : Nat)
  | OutOfRange
  | CorruptHeader
deriving DecidableEq, Repr

/-- Modelled from the spec: a compressed sequence value — header field
`symbol_count` (number of logical symbols, gaps included), the code-table id
from the flags, and the bit-packed code stream.  The substring index and the
swizzle are not modelled (they do not affect decoded content). -/
structure PB_CompressedSequence where
  symbol_count : Nat
  table_id : Nat
  stream : List Bool
deriving DecidableEq

/-- Case folding performed at compress time: the whole input is folded to
upper case when `case_sensitive = 0`, left unchanged otherwise. -/
def foldSeq (tm : PB_AlignedAaSequenceTypMod) (l : List Nat) : List Nat :=
  if tm.case_sensitive.val = 0 then l.map foldByte else l

/-- Scan for the first input byte rejected by the restricting alphabet,
returning the byte and its zero-based offset. -/
def findInvalid (tm : PB_AlignedAaSequenceTypMod) : List Nat → Nat → Option (Nat × Nat)
  | [], _ => none
  | b :: rest, i => if acceptsByte tm b then findInvalid tm rest (i + 1) else some (b, i)

/-- Modelled from the spec: `compress_aligned_aa_sequence` — validate every
input byte against the restricting alphabet (failing with `UnknownSymbol`
carrying the offending byte and its zero-based offset), fold case when
`case_sensitive = 0`, select the code table, encode, and assemble the blob. -/
def compress_aligned_aa_sequence (input : List Nat) (tm : PB_AlignedAaSequenceTypMod) :
    Except PB_Error PB_CompressedSequence :=
  match findInvalid tm input 0 with
  | some (b, i) => .error (.UnknownSymbol b i)
  | none =>
    match encodeSymbols (tableOfId (tableIdOf tm)) (foldSeq tm input) with
    | some bits => .ok ⟨input.length, tableIdOf tm, bits⟩
    | none => .error .CorruptHeader

/-- Modelled from the spec: `decompress_aligned_aa_sequence` — decode `length`
symbols starting at logical position `from_position`; `OutOfRange` when the
window extends past `symbol_count`. -/
def decompress_aligned_aa_sequence (v : PB_CompressedSequence)
    (from_position length : Nat) : Except PB_Error (List Nat) :=
  if from_position + length > v.symbol_count then .error .OutOfRange
  else
    match decodeSymbols (tableOfId v.table_id) (from_position + length) v.stream with
    | some (l, _) => .ok (l.drop from_position)
    | none => .error .CorruptHeader

/-- The full decoded symbol stream of a compressed value (empty on a corrupt
stream). -/
def decodedOf (v : PB_CompressedSequence) : List Nat :=
  match decodeSymbols (tableOfId v.table_id) v.symbol_count v.stream with
  | some (l, _) => l
  | none => []

/-- A compressed value is well formed when its stream decodes to exactly
`symbol_count` symbols with no bits left over. -/
def aaWellFormed (v : PB_CompressedSequence) : Bool :=
  match decodeSymbols (tableOfId v.table_id) v.symbol_count v.stream with
  | some (_, []) => true
  | _ => false

/-- Modelled from the spec: `aligned_aa_sequence_char_length` — returns
`symbol_count` straight from the header. -/
def aligned_aa_sequence_char_length (v : PB_CompressedSequence) : Nat :=
  v.symbol_count

/-- Modelled from the spec: `aligned_aa_sequence_substring` — 1-based, clamps
like the host's `substr` (negative or zero start shifts the window), decodes
exactly the window and returns it re-encoded as a new value. -/
def aligned_aa_sequence_substring (v : PB_CompressedSequence) (start len : Int) :
    Except PB_Error PB_CompressedSequence :=
  if len < 0 then .error .OutOfRange
  else
    match decompress_aligned_aa_sequence v
        (min (max (start - 1) 0) (v.symbol_count : Int)).toNat
        ((min (max (start - 1 + len) 0) (v.symbol_count : Int)).toNat
          - (min (max (start - 1) 0) (v.symbol_count : Int)).toNat) with
    | .ok syms =>
      match encodeSymbols (tableOfId v.table_id) syms with
      | some bits =>
        .ok ⟨(min (max (start - 1 + len) 0) (v.symbol_count : Int)).toNat
          - (min (max (start - 1) 0) (v.symbol_count : Int)).toNat, v.table_id, bits⟩
      | none => .error .CorruptHeader
    | .error e => .error e

/-- Modelled from the spec: `aligned_aa_sequence_reverse` — decode the whole
stream, reverse the symbols, re-encode with the same table (codes are
variable-length, so the stream cannot be reversed bit-wise). -/
def aligned_aa_sequence_reverse (v : PB_CompressedSequence) :
    Except PB_Error PB_CompressedSequence :=
  match decodeSymbols (tableOfId v.table_id) v.symbol_count v.stream with
  | some (l, _) =>
    match encodeSymbols (tableOfId v.table_id) l.reverse with
    | some bits => .ok ⟨v.symbol_count, v.table_id, bits⟩
    | none => .error .CorruptHeader
  | none => .error .CorruptHeader

/-- Lexicographic three-way comparison of symbol streams; on common-prefix
equality the shorter stream is less than the longer. -/
def compareSymbols : List Nat → List Nat → Int
  | [], [] => 0
  | [], _ :: _ => -1
  | _ :: _, [] => 1
  | a :: as, b :: bs => if a < b then -1 else if b < a then 1 else compareSymbols as bs

/-- Modelled from the spec: `compare_aligned_aa` — lexicographic by symbol
value over the two decoded streams. -/
def compare_aligned_aa (v w : PB_CompressedSequence) : Int :=
  compareSymbols (decodedOf v) (decodedOf w)

/-- Modelled from the spec: `equal_aligned_aa` — the decoded streams agree
symbol for symbol and in length. -/
def equal_aligned_aa (v w : PB_CompressedSequence) : Bool :=
  decodedOf v == decodedOf w

/-- One bit step of the reflected CRC32 (polynomial `0xEDB88320`). -/
def crc32_step (crc : Nat) : Nat :=
  if crc % 2 = 1 then (crc / 2) ^^^ 0xEDB88320 else crc / 2

/-- Fold one byte into a CRC32 accumulator (eight bit steps). -/
def crc32_update (crc b : Nat) : Nat :=
  crc32_step (crc32_step (crc32_step (crc32_step
    (crc32_step (crc32_step (crc32_step (crc32_step (crc ^^^ (b % 256)))))))))

/-- CRC32 of a byte stream. -/
def crc32 (l : List Nat) : Nat :=
  (l.foldl crc32_update 0xFFFFFFFF) ^^^ 0xFFFFFFFF

/-- Modelled from the spec: `hash_aligned_aa` — CRC32 over the decoded symbol
stream, not over the compressed bytes. -/
def hash_aligned_aa (v : PB_CompressedSequence) : Nat :=
  crc32 (decodedOf v)

/-- First 1-based occurrence of `nee` in `hay` at or after 0-based position
`i` (with `i` symbols already consumed), 0 when there is none. -/
def strposAux (nee : List Nat) (hay : List Nat) (i : Nat) : Nat :=
  if nee.isPrefixOf hay then i + 1
  else
    match hay with
    | [] => 0
    | _ :: t => strposAux nee t (i + 1)

/-- Modelled from the spec: `strpos_aligned_aa` — 1-based position of the first
occurrence of the needle's decoded symbol stream in the haystack's decoded
symbol stream, 0 when absent; case folding follows the haystack's modifier
(table ids 0 and 2 are the case-insensitive tables). -/
def strpos_aligned_aa (h n : PB_CompressedSequence) : Nat :=
  strposAux
    (if h.table_id % 2 = 0 then (decodedOf n).map foldByte else decodedOf n)
    (decodedOf h) 0

/-- Extract the value of a successful compression; sample values below are
used to exercise the operations on concrete inputs. -/
def aaSampleGet (e : Except PB_Error PB_CompressedSequence) : PB_CompressedSequence :=
  match e with
  | .ok v => v
  | .error _ => ⟨0, 0, []⟩

def smpA : PB_CompressedSequence :=
  aaSampleGet (compress_aligned_aa_sequence [65] ⟨0, 0⟩)

def smpAC : PB_CompressedSequence :=
  aaSampleGet (compress_aligned_aa_sequence [65, 67] ⟨0, 0⟩)

def smpC : PB_CompressedSequence :=
  aaSampleGet (compress_aligned_aa_sequence [67] ⟨0, 0⟩)

def smpMKT : PB_CompressedSequence :=
  aaSampleGet (compress_aligned_aa_sequence [77, 75, 84] ⟨0, 0⟩)

def smpmktLower : PB_CompressedSequence :=
  aaSampleGet (compress_aligned_aa_sequence [109, 107, 116] ⟨0, 0⟩)

def smpMKTAA : PB_CompressedSequence :=
  aaSampleGet (compress_aligned_aa_sequence [77, 75, 84, 45, 45, 65, 65] ⟨0, 0⟩)

def smpABCD : PB_CompressedSequence :=
  aaSampleGet (compress_aligned_aa_sequence [65, 66, 67, 45, 68] ⟨0, 0⟩)

def vLowM : PB_CompressedSequence :=
  aaSampleGet (compress_aligned_aa_sequence [109] ⟨0, 0⟩)

def hUpM : PB_CompressedSequence :=
  aaSampleGet (compress_aligned_aa_sequence [77] ⟨0, 0⟩)

def nLowM : PB_CompressedSequence :=
  aaSampleGet (compress_aligned_aa_sequence [109] ⟨1, 0⟩)

def hStrHay : PB_CompressedSequence :=
  aaSampleGet
    (compress_aligned_aa_sequence [77, 75, 84, 65, 65, 65, 71, 45, 45, 77] ⟨0, 0⟩)

def nStrNee : PB_CompressedSequence :=
  aaSampleGet (compress_aligned_aa_sequence [65, 65, 71] ⟨0, 0⟩)

instance {ε α : Type} [DecidableEq ε] [DecidableEq α] : DecidableEq (Except ε α) := fun x y =>
  match x, y with
  | .ok a, .ok b =>
    if h : a = b then .isTrue (by rw [h]) else .isFalse (fun hh => h (Except.ok.inj hh))
  | .error a, .error b =>
    if h : a = b then .isTrue (by rw [h]) else .isFalse (fun hh => h (Except.error.inj hh))
  | .ok _, .error _ => .isFalse (fun hh => Except.noConfusion hh)
  | .error _, .ok _ => .isFalse (fun hh => Except.noConfusion hh)

set_option maxRecDepth 100000

theorem isPrefixOf_true {α : Type} [BEq α] [LawfulBEq α] {l₁ l₂ : List α} :
    l₁.isPrefixOf l₂ = true ↔ l₁ <+: l₂ :=
  List.isPrefixOf_iff_prefix

theorem pfxAppendCases {α : Type} {p a b : List α} (h : p <+: a ++ b) :
    p <+: a ∨ a <+: p :=
  List.prefix_or_prefix_of_prefix h (List.prefix_append a b)

theorem okPair_spec {a b : Nat × List Bool} (h : okPair a b) :
    a.1 ≠ b.1 ∧ ¬ a.2 <+: b.2 ∧ ¬ b.2 <+: a.2 := by
  refine ⟨h.1, fun hp => ?_, fun hp => ?_⟩
  · have := isPrefixOf_true.mpr hp
    rw [h.2.1] at this
    exact Bool.noConfusion this
  · have := isPrefixOf_true.mpr hp
    rw [h.2.2] at this
    exact Bool.noConfusion this

theorem find_by_code_of_find_by_symbol :
    ∀ (l : List (Nat × List Bool)), l.Pairwise okPair →
      ∀ {b : Nat} {c : List Bool}, (l.find? fun e => e.1 == b).map Prod.snd = some c →
      ∀ rest : List Bool, (l.find? fun e => e.2.isPrefixOf (c ++ rest)) = some (b, c) := by
  intro l
  induction l with
  | nil => intro _ b c hc; simp [List.find?] at hc
  | cons a t ih =>
    intro hp b c hc rest
    rcases List.pairwise_cons.mp hp with ⟨hhead, htail⟩
    by_cases hab : a.1 = b
    · have hpos : (a.1 == b) = true := beq_iff_eq.mpr hab
      rw [@List.find?_cons_of_pos _ (fun (e : Nat × List Bool) => e.1 == b) a t hpos] at hc
      simp only [Option.map_some'] at hc
      have hac : a.2 = c := Option.some.inj hc
      have hpa : (a.2.isPrefixOf (c ++ rest)) = true := by
        rw [hac]
        exact isPrefixOf_true.mpr (List.prefix_append _ _)
      rw [@List.find?_cons_of_pos _
        (fun (e : Nat × List Bool) => e.2.isPrefixOf (c ++ rest)) a t hpa]
      rcases a with ⟨a1, a2⟩
      simp only at hab hac
      rw [hab, hac]
    · have hneg : ¬ ((a.1 == b) = true) := fun hh => hab (beq_iff_eq.mp hh)
      rw [@List.find?_cons_of_neg _ (fun (e : Nat × List Bool) => e.1 == b) a t hneg] at hc
      rcases Option.map_eq_some'.mp hc with ⟨e, he, hce⟩
      have hmem : e ∈ t := List.mem_of_find?_eq_some he
      have hok := okPair_spec (hhead e hmem)
      have hpa : ¬ ((a.2.isPrefixOf (c ++ rest)) = true) := by
        intro hh
        rcases pfxAppendCases (isPrefixOf_true.mp hh) with hcase | hcase
        · exact hok.2.1 (hce ▸ hcase)
        · exact hok.2.2 (hce ▸ hcase)
      rw [@List.find?_cons_of_neg _
        (fun (e : Nat × List Bool) => e.2.isPrefixOf (c ++ rest)) a t hpa]
      exact ih htail hc rest

theorem decodeOne_encoded {cs : PB_CodeSet} (hg : goodCodeSet cs)
    {b : Nat} {c : List Bool} (hc : findCode cs b = some c) (rest : List Bool) :
    decodeOne cs (c ++ rest) = some (b, rest) := by
  unfold decodeOne
  rw [find_by_code_of_find_by_symbol cs.entries hg hc rest]
  simp [List.drop_left]

theorem findCode_of_mem :
    ∀ (l : List (Nat × List Bool)), l.Pairwise okPair →
      ∀ {e : Nat × List Bool}, e ∈ l →
      (l.find? fun x => x.1 == e.1).map Prod.snd = some e.2 := by
  intro l
  induction l with
  | nil => intro _ e he; exact absurd he (List.not_mem_nil e)
  | cons a t ih =>
    intro hp e he
    rcases List.pairwise_cons.mp hp with ⟨hhead, htail⟩
    rcases List.mem_cons.mp he with rfl | hmem
    · have hpos : (e.1 == e.1) = true := beq_iff_eq.mpr rfl
      rw [@List.find?_cons_of_pos _ (fun (x : Nat × List Bool) => x.1 == e.1) e t hpos]
      rfl
    · have hne : a.1 ≠ e.1 := (okPair_spec (hhead e hmem)).1
      have hneg : ¬ ((a.1 == e.1) = true) := fun hh => hne (beq_iff_eq.mp hh)
      rw [@List.find?_cons_of_neg _ (fun (x : Nat × List Bool) => x.1 == e.1) a t hneg]
      exact ih htail hmem

theorem decodeSymbols_succ_eq {cs : PB_CodeSet} {bits : List Bool} {b : Nat}
    {rest : List Bool} (h1 : decodeOne cs bits = some (b, rest)) (n : Nat) :
    decodeSymbols cs (n + 1) bits =
      (decodeSymbols cs n rest).map fun q => (b :: q.1, q.2) := by
  show (decodeOne cs bits).bind _ = _
  rw [h1]
  rfl

theorem decodeSymbols_succ_none {cs : PB_CodeSet} {bits : List Bool}
    (h1 : decodeOne cs bits = none) (n : Nat) :
    decodeSymbols cs (n + 1) bits = none := by
  show (decodeOne cs bits).bind _ = _
  rw [h1]
  rfl

theorem decode_of_encode {cs : PB_CodeSet} (hg : goodCodeSet cs) :
    ∀ (l : List Nat) {bits : List Bool}, encodeSymbols cs l = some bits →
      ∀ extra, decodeSymbols cs l.length (bits ++ extra) = some (l, extra) := by
  intro l
  induction l with
  | nil =>
    intro bits he extra
    simp only [encodeSymbols, Option.some.injEq] at he
    subst he
    simp [decodeSymbols]
  | cons b t ih =>
    intro bits he extra
    unfold encodeSymbols at he
    cases hcode : findCode cs b with
    | none => rw [hcode] at he; exact absurd he (by simp)
    | some c =>
      cases hrest : encodeSymbols cs t with
      | none => rw [hcode, hrest] at he; exact absurd he (by simp)
      | some r =>
        rw [hcode, hrest] at he
        simp only [Option.some.injEq] at he
        subst he
        show decodeSymbols cs (t.length + 1) ((c ++ r) ++ extra) = some (b :: t, extra)
        rw [List.append_assoc,
          decodeSymbols_succ_eq (decodeOne_encoded hg hcode (r ++ extra)) t.length,
          ih hrest extra]
        rfl

theorem encode_of_decode {cs : PB_CodeSet} (hg : goodCodeSet cs) :
    ∀ (n : Nat) (bits : List Bool) {l : List Nat} {rem : List Bool},
      decodeSymbols cs n bits = some (l, rem) →
      l.length = n ∧ ∃ pre, bits = pre ++ rem ∧ encodeSymbols cs l = some pre := by
  intro n
  induction n with
  | zero =>
    intro bits l rem hd
    simp only [decodeSymbols, Option.some.injEq, Prod.mk.injEq] at hd
    rcases hd with ⟨rfl, rfl⟩
    exact ⟨rfl, [], rfl, rfl⟩
  | succ n ih =>
    intro bits l rem hd
    cases hone : decodeOne cs bits with
    | none => rw [decodeSymbols_succ_none hone n] at hd; exact absurd hd (by simp)
    | some p =>
      rcases p with ⟨b, rest⟩
      rw [decodeSymbols_succ_eq hone n] at hd
      cases hrec : decodeSymbols cs n rest with
      | none => rw [hrec] at hd; exact absurd hd (by simp)
      | some q =>
        rcases q with ⟨l', rem'⟩
        rw [hrec] at hd
        simp only [Option.map_some', Option.some.injEq, Prod.mk.injEq] at hd
        rcases hd with ⟨rfl, rfl⟩
        rcases Option.map_eq_some'.mp hone with ⟨e, hfind, hval⟩
        have hmem : e ∈ cs.entries := List.mem_of_find?_eq_some hfind
        have hfs := List.find?_some hfind
        have hpe : e.2 <+: bits := isPrefixOf_true.mp hfs
        simp only [Prod.mk.injEq] at hval
        rcases hval with ⟨hb, hrest⟩
        rcases ih rest hrec with ⟨hlen, pre', hsplit, henc⟩
        have hbits : bits = e.2 ++ rest := by
          rw [← hrest]
          exact (List.prefix_iff_eq_append.mp hpe).symm
        refine ⟨by simp [hlen], e.2 ++ pre', ?_, ?_⟩
        · rw [hbits, hsplit, List.append_assoc]
        · have hfc : findCode cs b = some e.2 := by
            unfold findCode
            rw [← hb]
            exact findCode_of_mem cs.entries hg hmem
          unfold encodeSymbols
          rw [hfc, henc]

theorem decode_take {cs : PB_CodeSet} :
    ∀ (m n : Nat) (bits : List Bool) {l : List Nat} {rem : List Bool},
      decodeSymbols cs n bits = some (l, rem) → m ≤ n →
      ∃ rem', decodeSymbols cs m bits = some (l.take m, rem') := by
  intro m
  induction m with
  | zero => intro n bits l rem _ _; exact ⟨bits, rfl⟩
  | succ m ih =>
    intro n bits l rem hd hmn
    cases n with
    | zero => exact absurd hmn (by omega)
    | succ n =>
      cases hone : decodeOne cs bits with
      | none => rw [decodeSymbols_succ_none hone n] at hd; exact absurd hd (by simp)
      | some p =>
        rcases p with ⟨b, rest⟩
        rw [decodeSymbols_succ_eq hone n] at hd
        cases hrec : decodeSymbols cs n rest with
        | none => rw [hrec] at hd; exact absurd hd (by simp)
        | some q =>
          rcases q with ⟨l', rem'⟩
          rw [hrec] at hd
          simp only [Option.map_some', Option.some.injEq, Prod.mk.injEq] at hd
          rcases hd with ⟨rfl, rfl⟩
          rcases ih n rest hrec (by omega) with ⟨rem'', hm⟩
          refine ⟨rem'', ?_⟩
          rw [decodeSymbols_succ_eq hone m, hm]
          rfl

theorem encode_total {cs : PB_CodeSet} :
    ∀ (l : List Nat), (∀ b ∈ l, (findCode cs b).isSome) →
      ∃ bits, encodeSymbols cs l = some bits := by
  intro l
  induction l with
  | nil => intro _; exact ⟨[], rfl⟩
  | cons b t ih =>
    intro h
    rcases Option.isSome_iff_exists.mp (h b (List.mem_cons_self b t)) with ⟨c, hc⟩
    rcases ih (fun x hx => h x (List.mem_cons_of_mem b hx)) with ⟨r, hr⟩
    refine ⟨c ++ r, ?_⟩
    unfold encodeSymbols
    rw [hc, hr]

theorem encode_mem_isSome {cs : PB_CodeSet} :
    ∀ (l : List Nat) {bits : List Bool}, encodeSymbols cs l = some bits →
      ∀ b ∈ l, (findCode cs b).isSome := by
  intro l
  induction l with
  | nil => intro bits _ b hb; exact absurd hb (List.not_mem_nil b)
  | cons x t ih =>
    intro bits he b hb
    unfold encodeSymbols at he
    cases hcode : findCode cs x with
    | none => rw [hcode] at he; exact absurd he (by simp)
    | some c =>
      cases hrest : encodeSymbols cs t with
      | none => rw [hcode, hrest] at he; exact absurd he (by simp)
      | some r =>
        rcases List.mem_cons.mp hb with rfl | hmem
        · rw [hcode]; rfl
        · exact ih hrest b hmem

theorem good_aaCodeCI : goodCodeSet aaCodeCI := by decide

theorem good_aaCodeCS : goodCodeSet aaCodeCS := by decide

theorem good_asciiCode : goodCodeSet asciiCode := by decide

theorem good_tableOfId (id : Nat) : goodCodeSet (tableOfId id) := by
  unfold tableOfId
  split
  · exact good_aaCodeCI
  split
  · exact good_aaCodeCS
  · exact good_asciiCode

theorem isIupacAaByte_lt {b : Nat} (h : isIupacAaByte b = true) : b < 256 := by
  have h' := of_decide_eq_true h
  unfold foldByte at h'
  by_cases hb : 97 ≤ b ∧ b ≤ 122
  · omega
  · rw [if_neg hb] at h'
    rcases h' with h' | h'
    · omega
    · simp only [aaLetters, List.mem_cons, List.not_mem_nil, or_false] at h'
      omega

theorem isPrintableByte_lt {b : Nat} (h : isPrintableByte b = true) : b < 256 := by
  have h' := of_decide_eq_true h
  omega

theorem findCode_ci_total {b : Nat} (h : isIupacAaByte b = true) :
    (findCode aaCodeCI (foldByte b)).isSome = true :=
  (by decide :
    ∀ x : Fin 256, isIupacAaByte x.val = true →
      (findCode aaCodeCI (foldByte x.val)).isSome = true) ⟨b, isIupacAaByte_lt h⟩ h

theorem findCode_cs_total {b : Nat} (h : isIupacAaByte b = true) :
    (findCode aaCodeCS b).isSome = true :=
  (by decide :
    ∀ x : Fin 256, isIupacAaByte x.val = true →
      (findCode aaCodeCS x.val).isSome = true) ⟨b, isIupacAaByte_lt h⟩ h

theorem findCode_ascii_fold_total {b : Nat} (h : isPrintableByte b = true) :
    (findCode asciiCode (foldByte b)).isSome = true :=
  (by decide :
    ∀ x : Fin 256, isPrintableByte x.val = true →
      (findCode asciiCode (foldByte x.val)).isSome = true) ⟨b, isPrintableByte_lt h⟩ h

theorem findCode_ascii_total {b : Nat} (h : isPrintableByte b = true) :
    (findCode asciiCode b).isSome = true :=
  (by decide :
    ∀ x : Fin 256, isPrintableByte x.val = true →
      (findCode asciiCode x.val).isSome = true) ⟨b, isPrintableByte_lt h⟩ h

theorem foldByte_foldByte (b : Nat) : foldByte (foldByte b) = foldByte b := by
  unfold foldByte
  by_cases hb : 97 ≤ b ∧ b ≤ 122
  · rw [if_pos hb, if_neg (by omega)]
  · rw [if_neg hb, if_neg hb]

theorem foldSeq_length (tm : PB_AlignedAaSequenceTypMod) (l : List Nat) :
    (foldSeq tm l).length = l.length := by
  unfold foldSeq
  split
  · exact List.length_map l foldByte
  · rfl

theorem findInvalid_none {tm : PB_AlignedAaSequenceTypMod} :
    ∀ (s : List Nat), (∀ b ∈ s, acceptsByte tm b = true) →
      ∀ i, findInvalid tm s i = none := by
  intro s
  induction s with
  | nil => intro _ _; rfl
  | cons b t ih =>
    intro h i
    unfold findInvalid
    rw [if_pos (h b (List.mem_cons_self b t))]
    exact ih (fun x hx => h x (List.mem_cons_of_mem b hx)) (i + 1)

theorem findInvalid_first {tm : PB_AlignedAaSequenceTypMod} :
    ∀ (s : List Nat) (i : Nat) (hi : i < s.length),
      acceptsByte tm (s.get ⟨i, hi⟩) = false →
      (∀ j (hj : j < i), acceptsByte tm (s.get ⟨j, Nat.lt_trans hj hi⟩) = true) →
      ∀ k, findInvalid tm s k = some (s.get ⟨i, hi⟩, k + i) := by
  intro s
  induction s with
  | nil => intro i hi; exact absurd hi (by simp)
  | cons b t ih =>
    intro i hi hbad hmin k
    cases i with
    | zero =>
      unfold findInvalid
      have hbad0 : acceptsByte tm b = false := hbad
      rw [if_neg (Bool.eq_false_iff.mp hbad0)]
      rfl
    | succ i =>
      have hb : acceptsByte tm b = true := hmin 0 (Nat.succ_pos i)
      unfold findInvalid
      rw [if_pos hb]
      have hi' : i < t.length := Nat.lt_of_succ_lt_succ hi
      have hbad' : acceptsByte tm (t.get ⟨i, hi'⟩) = false := hbad
      have hmin' : ∀ j (hj : j < i),
          acceptsByte tm (t.get ⟨j, Nat.lt_trans hj hi'⟩) = true := by
        intro j hj
        exact hmin (j + 1) (Nat.succ_lt_succ hj)
      rw [ih i hi' hbad' hmin' (k + 1)]
      have : k + 1 + i = k + (i + 1) := by omega
      rw [this]
      rfl

theorem wf_decode {v : PB_CompressedSequence} (hw : aaWellFormed v = true) :
    decodeSymbols (tableOfId v.table_id) v.symbol_count v.stream =
      some (decodedOf v, []) := by
  unfold aaWellFormed at hw
  unfold decodedOf
  cases hd : decodeSymbols (tableOfId v.table_id) v.symbol_count v.stream with
  | none => rw [hd] at hw; exact absurd hw (by simp)
  | some p =>
    rcases p with ⟨l, rem⟩
    rw [hd] at hw
    cases rem with
    | nil => rfl
    | cons x xs => exact absurd hw (by simp)

theorem decodedOf_length {v : PB_CompressedSequence} (hw : aaWellFormed v = true) :
    (decodedOf v).length = v.symbol_count :=
  (encode_of_decode (good_tableOfId _) _ _ (wf_decode hw)).1

theorem wf_encode {v : PB_CompressedSequence} (hw : aaWellFormed v = true) :
    encodeSymbols (tableOfId v.table_id) (decodedOf v) = some v.stream := by
  rcases (encode_of_decode (good_tableOfId _) _ _ (wf_decode hw)).2 with ⟨pre, hsplit, henc⟩
  rw [List.append_nil] at hsplit
  rw [← hsplit] at henc
  exact henc

theorem mk_wellFormed {id : Nat} {l : List Nat} {bits : List Bool}
    (henc : encodeSymbols (tableOfId id) l = some bits) :
    aaWellFormed ⟨l.length, id, bits⟩ = true ∧ decodedOf ⟨l.length, id, bits⟩ = l := by
  have hdec := decode_of_encode (good_tableOfId id) l henc []
  rw [List.append_nil] at hdec
  constructor
  · show (match decodeSymbols (tableOfId id) l.length bits with
      | some (_, []) => true
      | _ => false) = true
    rw [hdec]
  · show (match decodeSymbols (tableOfId id) l.length bits with
      | some (l, _) => l
      | none => []) = l
    rw [hdec]

theorem table_total {tm : PB_AlignedAaSequenceTypMod} {s : List Nat}
    (hval : ∀ b ∈ s, acceptsByte tm b = true) :
    ∀ b ∈ foldSeq tm s, (findCode (tableOfId (tableIdOf tm)) b).isSome = true := by
  intro b hb
  by_cases hra : tm.restricting_alphabet.val = PB_ALIGNED_AA_TYPMOD_ASCII
  · have htab : tableOfId (tableIdOf tm) = asciiCode := by
      unfold tableIdOf
      rw [if_pos hra]
      unfold tableOfId
      rw [if_neg (by omega), if_neg (by omega)]
    rw [htab]
    unfold foldSeq at hb
    by_cases hcs : tm.case_sensitive.val = 0
    · rw [if_pos hcs] at hb
      rcases List.mem_map.mp hb with ⟨a, ha, rfl⟩
      have hacc := hval a ha
      unfold acceptsByte at hacc
      rw [if_pos hra] at hacc
      exact findCode_ascii_fold_total hacc
    · rw [if_neg hcs] at hb
      have hacc := hval b hb
      unfold acceptsByte at hacc
      rw [if_pos hra] at hacc
      exact findCode_ascii_total hacc
  · unfold foldSeq at hb
    by_cases hcs : tm.case_sensitive.val = 0
    · have htab : tableOfId (tableIdOf tm) = aaCodeCI := by
        unfold tableIdOf
        rw [if_neg hra, hcs]
        rfl
      rw [htab]
      rw [if_pos hcs] at hb
      rcases List.mem_map.mp hb with ⟨a, ha, rfl⟩
      have hacc := hval a ha
      unfold acceptsByte at hacc
      rw [if_neg hra] at hacc
      exact findCode_ci_total hacc
    · have hcs1 : tm.case_sensitive.val = 1 := by
        have hlt := tm.case_sensitive.isLt
        omega
      have htab : tableOfId (tableIdOf tm) = aaCodeCS := by
        unfold tableIdOf
        rw [if_neg hra, hcs1]
        rfl
      rw [htab]
      rw [if_neg hcs] at hb
      have hacc := hval b hb
      unfold acceptsByte at hacc
      rw [if_neg hra] at hacc
      exact findCode_cs_total hacc

theorem compress_decoded {s : List Nat} {tm : PB_AlignedAaSequenceTypMod}
    {v : PB_CompressedSequence} (hok : compress_aligned_aa_sequence s tm = .ok v) :
    v.symbol_count = s.length ∧ v.table_id = tableIdOf tm ∧
      aaWellFormed v = true ∧ decodedOf v = foldSeq tm s ∧
      encodeSymbols (tableOfId v.table_id) (foldSeq tm s) = some v.stream := by
  unfold compress_aligned_aa_sequence at hok
  cases hfi : findInvalid tm s 0 with
  | some p =>
    rcases p with ⟨x, y⟩
    rw [hfi] at hok
    have hbad : Except.error (PB_Error.UnknownSymbol x y) =
        (Except.ok v : Except PB_Error PB_CompressedSequence) := hok
    exact Except.noConfusion hbad
  | none =>
    rw [hfi] at hok
    have hok2 : (match encodeSymbols (tableOfId (tableIdOf tm)) (foldSeq tm s) with
        | some bits =>
          Except.ok (⟨s.length, tableIdOf tm, bits⟩ : PB_CompressedSequence)
        | none => Except.error PB_Error.CorruptHeader) = Except.ok v := hok
    cases henc : encodeSymbols (tableOfId (tableIdOf tm)) (foldSeq tm s) with
    | none =>
      rw [henc] at hok2
      have hbad : Except.error PB_Error.CorruptHeader =
          (Except.ok v : Except PB_Error PB_CompressedSequence) := hok2
      exact Except.noConfusion hbad
    | some bits =>
      rw [henc] at hok2
      have hok3 : Except.ok (⟨s.length, tableIdOf tm, bits⟩ : PB_CompressedSequence) =
          Except.ok v := hok2
      have hv : (⟨s.length, tableIdOf tm, bits⟩ : PB_CompressedSequence) = v :=
        Except.ok.inj hok3
      subst hv
      have hlen := foldSeq_length tm s
      have hmk := mk_wellFormed henc
      rw [hlen] at hmk
      exact ⟨rfl, rfl, hmk.1, hmk.2, henc⟩

theorem compress_ok {s : List Nat} {tm : PB_AlignedAaSequenceTypMod}
    (hval : ∀ b ∈ s, acceptsByte tm b = true) :
    ∃ v, compress_aligned_aa_sequence s tm = .ok v := by
  unfold compress_aligned_aa_sequence
  rw [findInvalid_none s hval 0]
  rcases encode_total (foldSeq tm s) (table_total hval) with ⟨bits, hb⟩
  rw [hb]
  exact ⟨⟨s.length, tableIdOf tm, bits⟩, rfl⟩

theorem decompress_ok {v : PB_CompressedSequence} (hw : aaWellFormed v = true)
    {a len : Nat} (hal : a + len ≤ v.symbol_count) :
    decompress_aligned_aa_sequence v a len =
      .ok (((decodedOf v).drop a).take len) := by
  have hd := wf_decode hw
  rcases decode_take (a + len) v.symbol_count v.stream hd hal with ⟨rem', hm⟩
  unfold decompress_aligned_aa_sequence
  rw [if_neg (by omega), hm]
  show Except.ok (((decodedOf v).take (a + len)).drop a) = _
  rw [List.drop_take]
  have he : a + len - a = len := by omega
  rw [he]

theorem substring_ok {v : PB_CompressedSequence} (hw : aaWellFormed v = true)
    {a len : Nat} (hal : a + len ≤ v.symbol_count) :
    ∃ w, aligned_aa_sequence_substring v ((a : Int) + 1) (len : Int) = .ok w ∧
      w.symbol_count = len ∧ w.table_id = v.table_id ∧ aaWellFormed w = true ∧
      decodedOf w = ((decodedOf v).drop a).take len := by
  have hwin : (((decodedOf v).drop a).take len).length = len := by
    rw [List.length_take, List.length_drop, decodedOf_length hw]
    omega
  have hmem : ∀ b ∈ ((decodedOf v).drop a).take len,
      (findCode (tableOfId v.table_id) b).isSome = true :=
    fun b hb =>
      encode_mem_isSome _ (wf_encode hw) b
        (List.mem_of_mem_drop (List.mem_of_mem_take hb))
  rcases encode_total _ hmem with ⟨bits, hb⟩
  have hmk := mk_wellFormed hb
  rw [hwin] at hmk
  refine ⟨⟨len, v.table_id, bits⟩, ?_, rfl, rfl, hmk.1, hmk.2⟩
  unfold aligned_aa_sequence_substring
  rw [if_neg (by omega)]
  have hfrom : (min (max ((a : Int) + 1 - 1) 0) (v.symbol_count : Int)).toNat = a := by
    omega
  have hend :
      (min (max ((a : Int) + 1 - 1 + (len : Int)) 0) (v.symbol_count : Int)).toNat
        = a + len := by
    omega
  rw [hfrom, hend]
  have hsub : a + len - a = len := by omega
  rw [hsub, decompress_ok hw hal]
  show (match encodeSymbols (tableOfId v.table_id) (((decodedOf v).drop a).take len) with
    | some bits => Except.ok (⟨len, v.table_id, bits⟩ : PB_CompressedSequence)
    | none => Except.error PB_Error.CorruptHeader) = _
  rw [hb]

theorem compareSymbols_eq_zero_iff :
    ∀ a b : List Nat, compareSymbols a b = 0 ↔ a = b := by
  intro a
  induction a with
  | nil =>
    intro b
    cases b with
    | nil => simp [compareSymbols]
    | cons y ys => simp [compareSymbols]
  | cons x xs ih =>
    intro b
    cases b with
    | nil => simp [compareSymbols]
    | cons y ys =>
      unfold compareSymbols
      rcases Nat.lt_trichotomy x y with h | h | h
      · rw [if_pos h]
        constructor
        · intro hh; exact absurd hh (by decide)
        · intro hh
          have : x = y := (List.cons.inj hh).1
          omega
      · rw [if_neg (by omega), if_neg (by omega)]
        rw [ih ys]
        constructor
        · intro hh; rw [h, hh]
        · intro hh; exact (List.cons.inj hh).2
      · rw [if_neg (by omega), if_pos h]
        constructor
        · intro hh; exact absurd hh (by decide)
        · intro hh
          have : x = y := (List.cons.inj hh).1
          omega

theorem compareSymbols_swap :
    ∀ a b : List Nat, compareSymbols b a = -compareSymbols a b := by
  intro a
  induction a with
  | nil =>
    intro b
    cases b with
    | nil => rfl
    | cons y ys => rfl
  | cons x xs ih =>
    intro b
    cases b with
    | nil => rfl
    | cons y ys =>
      unfold compareSymbols
      rcases Nat.lt_trichotomy x y with h | h | h
      · rw [if_pos h, if_neg (by omega), if_pos h]
        rfl
      · rw [if_neg (by omega), if_neg (by omega), if_neg (by omega), if_neg (by omega)]
        exact ih ys
      · rw [if_pos h, if_neg (by omega), if_pos h]

theorem compareSymbols_cases :
    ∀ a b : List Nat,
      compareSymbols a b = -1 ∨ compareSymbols a b = 0 ∨ compareSymbols a b = 1 := by
  intro a
  induction a with
  | nil =>
    intro b
    cases b with
    | nil => right; left; rfl
    | cons y ys => left; rfl
  | cons x xs ih =>
    intro b
    cases b with
    | nil => right; right; rfl
    | cons y ys =>
      unfold compareSymbols
      rcases Nat.lt_trichotomy x y with h | h | h
      · rw [if_pos h]; left; rfl
      · rw [if_neg (by omega), if_neg (by omega)]; exact ih ys
      · rw [if_neg (by omega), if_pos h]; right; right; rfl

theorem compareSymbols_lt_iff :
    ∀ a b : List Nat, compareSymbols a b = -1 ↔ List.Lex (· < ·) a b := by
  intro a
  induction a with
  | nil =>
    intro b
    cases b with
    | nil =>
      constructor
      · intro hh; exact absurd hh (by decide)
      · intro hh; cases hh
    | cons y ys =>
      constructor
      · intro _; exact List.Lex.nil
      · intro _; rfl
  | cons x xs ih =>
    intro b
    cases b with
    | nil =>
      constructor
      · intro hh; exact absurd hh (by simp [compareSymbols])
      · intro hh; cases hh
    | cons y ys =>
      unfold compareSymbols
      rcases Nat.lt_trichotomy x y with h | h | h
      · rw [if_pos h]
        constructor
        · intro _; exact List.Lex.rel h
        · intro _; rfl
      · subst h
        rw [if_neg (by omega), if_neg (by omega)]
        constructor
        · intro hh; exact List.Lex.cons ((ih ys).mp hh)
        · intro hh
          cases hh with
          | cons htail => exact (ih ys).mpr htail
          | rel hrel => omega
      · rw [if_neg (by omega), if_pos h]
        constructor
        · intro hh; exact absurd hh (by decide)
        · intro hh
          cases hh with
          | cons _ => omega
          | rel hrel => omega

theorem compareSymbols_trans :
    ∀ a b c : List Nat, compareSymbols a b = -1 → compareSymbols b c = -1 →
      compareSymbols a c = -1 := by
  intro a
  induction a with
  | nil =>
    intro b c hab hbc
    cases c with
    | nil =>
      cases b with
      | nil => exact absurd hab (by decide)
      | cons y ys => exact absurd hbc (by simp [compareSymbols])
    | cons z zs => rfl
  | cons x xs ih =>
    intro b c hab hbc
    cases b with
    | nil => exact absurd hab (by simp [compareSymbols])
    | cons y ys =>
      cases c with
      | nil => exact absurd hbc (by simp [compareSymbols])
      | cons z zs =>
        unfold compareSymbols at hab hbc ⊢
        rcases Nat.lt_trichotomy x y with hxy | hxy | hxy
        · rcases Nat.lt_trichotomy y z with hyz | hyz | hyz
          · rw [if_pos (by omega)]
          · rw [if_pos (by omega)]
          · rw [if_pos hyz, if_neg (by omega)] at hbc
            exact absurd hbc (by decide)
        · rcases Nat.lt_trichotomy y z with hyz | hyz | hyz
          · rw [if_pos (by omega)]
          · rw [if_neg (by omega), if_neg (by omega)]
            rw [if_neg (by omega), if_neg (by omega)] at hab
            rw [if_neg (by omega), if_neg (by omega)] at hbc
            exact ih ys zs hab hbc
          · rw [if_pos hyz, if_neg (by omega)] at hbc
            exact absurd hbc (by decide)
        · rw [if_neg (by omega), if_pos hxy] at hab
          exact absurd hab (by decide)

theorem compareSymbols_append_lt {p x : List Nat} (hx : x ≠ []) :
    compareSymbols p (p ++ x) = -1 := by
  induction p with
  | nil =>
    cases x with
    | nil => exact absurd rfl hx
    | cons y ys => rfl
  | cons a p ih =>
    show (if a < a then (-1 : Int) else if a < a then 1 else compareSymbols p (p ++ x)) = -1
    rw [if_neg (lt_irrefl a), if_neg (lt_irrefl a)]
    exact ih

theorem strposAux_zero :
    ∀ (hay nee : List Nat) (i : Nat), strposAux nee hay i = 0 →
      ∀ j, ¬ nee <+: hay.drop j := by
  intro hay
  induction hay with
  | nil =>
    intro nee i h j hp
    rw [List.drop_nil] at hp
    unfold strposAux at h
    rw [if_pos (isPrefixOf_true.mpr hp)] at h
    exact absurd h (by omega)
  | cons b t ih =>
    intro nee i h j
    unfold strposAux at h
    by_cases hpre : nee.isPrefixOf (b :: t) = true
    · rw [if_pos hpre] at h
      exact absurd h (by omega)
    · rw [if_neg hpre] at h
      cases j with
      | zero =>
        intro hp
        exact hpre (isPrefixOf_true.mpr hp)
      | succ j =>
        exact ih nee (i + 1) h j

theorem strposAux_succ :
    ∀ (hay nee : List Nat) (i k : Nat), strposAux nee hay i = k + 1 →
      i ≤ k ∧ k - i ≤ hay.length ∧ nee <+: hay.drop (k - i) ∧
        ∀ j, j < k - i → ¬ nee <+: hay.drop j := by
  intro hay
  induction hay with
  | nil =>
    intro nee i k h
    unfold strposAux at h
    by_cases hpre : nee.isPrefixOf ([] : List Nat) = true
    · rw [if_pos hpre] at h
      have hik : i = k := by omega
      subst hik
      refine ⟨le_refl i, by simp, ?_, ?_⟩
      · rw [Nat.sub_self]
        exact isPrefixOf_true.mp hpre
      · intro j hj
        omega
    · rw [if_neg hpre] at h
      have h0 : (0 : Nat) = k + 1 := h
      exact absurd h0 (by omega)
  | cons b t ih =>
    intro nee i k h
    unfold strposAux at h
    by_cases hpre : nee.isPrefixOf (b :: t) = true
    · rw [if_pos hpre] at h
      have hik : i = k := by omega
      subst hik
      refine ⟨le_refl i, by simp, ?_, ?_⟩
      · rw [Nat.sub_self]
        exact isPrefixOf_true.mp hpre
      · intro j hj
        omega
    · rw [if_neg hpre] at h
      rcases ih nee (i + 1) k h with ⟨hik, hbound, hfound, hmin⟩
      have hki : k - i = (k - (i + 1)) + 1 := by omega
      refine ⟨by omega, ?_, ?_, ?_⟩
      · simp only [List.length_cons]
        omega
      · rw [hki]
        exact hfound
      · intro j hj
        cases j with
        | zero =>
          intro hp
          exact hpre (isPrefixOf_true.mpr hp)
        | succ j =>
          exact hmin j (by omega)

theorem tableIdOf_parity (tm : PB_AlignedAaSequenceTypMod) :
    tableIdOf tm % 2 = tm.case_sensitive.val := by
  unfold tableIdOf
  have := tm.case_sensitive.isLt
  split <;> omega

theorem foldSeq_fold_map {tm : PB_AlignedAaSequenceTypMod}
    (hcs : tm.case_sensitive.val = 0) (l : List Nat) :
    (foldSeq tm l).map foldByte = foldSeq tm l := by
  unfold foldSeq
  rw [if_pos hcs, List.map_map]
  induction l with
  | nil => rfl
  | cons b t ih =>
    simp only [List.map_cons, Function.comp_apply, List.map_map] at ih ⊢
    rw [foldByte_foldByte, ih]

/-- C1: Round-trip — for every input sequence `s` whose bytes all lie in the
restricting alphabet of modifier `m`, compression succeeds and decompressing
the full range `[0, length s)` yields `s` after the case folding prescribed by
`m` (folded to upper case when `case_sensitive = 0`, unchanged otherwise). -/
theorem c1_round_trip {s : List Nat} {tm : PB_AlignedAaSequenceTypMod}
    (hval : ∀ b ∈ s, acceptsByte tm b = true) :
    ∃ v, compress_aligned_aa_sequence s tm = .ok v ∧
      decompress_aligned_aa_sequence v 0 s.length = .ok (foldSeq tm s) := by
  rcases compress_ok hval with ⟨v, hv⟩
  rcases compress_decoded hv with ⟨hcnt, _, hwf, hdec, _⟩
  refine ⟨v, hv, ?_⟩
  have hrun := decompress_ok hwf (show 0 + s.length ≤ v.symbol_count by omega)
  have htake : (foldSeq tm s).take s.length = foldSeq tm s := by
    rw [← foldSeq_length tm s]
    exact List.take_length _
  rw [List.drop_zero, hdec, htake] at hrun
  exact hrun

/-- C1 witness. -/
theorem c1_round_trip_witness :
    (∀ b ∈ ([77, 75, 84, 45, 45, 65, 65] : List Nat), acceptsByte ⟨0, 0⟩ b = true) ∧
    ∃ v, compress_aligned_aa_sequence [77, 75, 84, 45, 45, 65, 65] ⟨0, 0⟩ = .ok v ∧
      decompress_aligned_aa_sequence v 0 ([77, 75, 84, 45, 45, 65, 65] : List Nat).length =
        .ok (foldSeq ⟨0, 0⟩ [77, 75, 84, 45, 45, 65, 65]) :=
  ⟨by decide, c1_round_trip (by decide)⟩

/-- C4: UnknownSymbol on validation — when the input's first out-of-alphabet
byte sits at zero-based offset `i`, compression fails with `UnknownSymbol`
reporting that byte and offset (so no compressed value is produced); in
particular `compress "MK*T" {cs=0, ra=IUPAC}` fails with `UnknownSymbol`
reporting byte `'*'` (42) at offset 2. -/
theorem c4_unknown_symbol :
    (∀ (s : List Nat) (tm : PB_AlignedAaSequenceTypMod) (i : Nat) (hi : i < s.length),
      acceptsByte tm (s.get ⟨i, hi⟩) = false →
      (∀ j (hj : j < i), acceptsByte tm (s.get ⟨j, Nat.lt_trans hj hi⟩) = true) →
      compress_aligned_aa_sequence s tm = .error (.UnknownSymbol (s.get ⟨i, hi⟩) i)) ∧
    compress_aligned_aa_sequence [77, 75, 42, 84] ⟨0, 0⟩ =
      .error (.UnknownSymbol 42 2) := by
  constructor
  · intro s tm i hi hbad hmin
    unfold compress_aligned_aa_sequence
    rw [findInvalid_first s i hi hbad hmin 0]
    show Except.error (PB_Error.UnknownSymbol (s.get ⟨i, hi⟩) (0 + i)) = _
    rw [Nat.zero_add]
  · decide

/-- C4 witness. -/
theorem c4_unknown_symbol_witness :
    compress_aligned_aa_sequence [77, 75, 42, 84] ⟨0, 0⟩ =
      .error (.UnknownSymbol (([77, 75, 42, 84] : List Nat).get ⟨2, by decide⟩) 2) :=
  c4_unknown_symbol.1 [77, 75, 42, 84] ⟨0, 0⟩ 2 (by decide) (by decide) (by decide)

/-- C5: Hash is over the decoded stream — when two inputs agree after the case
folding of their respective modifiers, the two compressed values hash
equally (hash is CRC32 of the decoded symbol stream). -/
theorem c5_hash_decoded {s t : List Nat} {tm tm' : PB_AlignedAaSequenceTypMod}
    {v w : PB_CompressedSequence}
    (hsv : compress_aligned_aa_sequence s tm = .ok v)
    (htw : compress_aligned_aa_sequence t tm' = .ok w)
    (hfold : foldSeq tm s = foldSeq tm' t) :
    hash_aligned_aa v = hash_aligned_aa w := by
  unfold hash_aligned_aa
  rw [(compress_decoded hsv).2.2.2.1, (compress_decoded htw).2.2.2.1, hfold]

/-- C5 witness: `compress "mkt"` and `compress "MKT"` (both case-insensitive
IUPAC) hash equally. -/
theorem c5_hash_decoded_witness :
    compress_aligned_aa_sequence [109, 107, 116] ⟨0, 0⟩ = .ok smpmktLower ∧
    compress_aligned_aa_sequence [77, 75, 84] ⟨0, 0⟩ = .ok smpMKT ∧
    hash_aligned_aa smpmktLower = hash_aligned_aa smpMKT :=
  ⟨by decide, by decide,
    @c5_hash_decoded [109, 107, 116] [77, 75, 84] ⟨0, 0⟩ ⟨0, 0⟩ smpmktLower smpMKT
      (by decide) (by decide) (by decide)⟩

/-- C7: Type-modifier codec — `to_int` is the packing `(cs & 1) | ((ra & 3)
<< 1)`, `from_int (-1)` is the case-insensitive IUPAC default, and `from_int`
round-trips `to_int` on every modifier. -/
theorem c7_typmod_codec :
    (∀ tm : PB_AlignedAaSequenceTypMod,
      aligned_aa_sequence_typmod_to_int tm =
        (((tm.case_sensitive.val &&& 1) |||
          ((tm.restricting_alphabet.val &&& 3) <<< 1) : Nat) : Int)) ∧
    int_to_aligned_aa_sequence_typmod (-1) = ⟨0, 0⟩ ∧
    ∀ tm : PB_AlignedAaSequenceTypMod,
      int_to_aligned_aa_sequence_typmod (aligned_aa_sequence_typmod_to_int tm) = tm := by
  refine ⟨fun tm => rfl, by decide, fun tm => ?_⟩
  rcases tm with ⟨cs, ra⟩
  fin_cases cs <;> fin_cases ra <;> decide

/-- C8: Length consistency — `char_length` answers straight from the stored
`symbol_count` header field, and on every compression result it equals the
input's length in symbols (gaps included). -/
theorem c8_char_length :
    (∀ w : PB_CompressedSequence, aligned_aa_sequence_char_length w = w.symbol_count) ∧
    ∀ (s : List Nat) (tm : PB_AlignedAaSequenceTypMod) (v : PB_CompressedSequence),
      compress_aligned_aa_sequence s tm = .ok v →
      aligned_aa_sequence_char_length v = s.length :=
  ⟨fun _ => rfl, fun _ _ _ hok => (compress_decoded hok).1⟩

/-- C8 witness. -/
theorem c8_char_length_witness :
    aligned_aa_sequence_char_length smpMKTAA = 7 :=
  c8_char_length.2 [77, 75, 84, 45, 45, 65, 65] ⟨0, 0⟩ smpMKTAA (by decide)

/-- C10: Implicit bit-field bounds — every representable modifier has
`case_sensitive < 2` and `restricting_alphabet < 4`, so `to_int` always lands
in `[0, 7]` and in particular never collides with the sentinel `-1`. -/
theorem c10_typmod_bounds :
    ∀ tm : PB_AlignedAaSequenceTypMod,
      tm.case_sensitive.val < 2 ∧ tm.restricting_alphabet.val < 4 ∧
      0 ≤ aligned_aa_sequence_typmod_to_int tm ∧
      aligned_aa_sequence_typmod_to_int tm ≤ 7 ∧
      aligned_aa_sequence_typmod_to_int tm ≠ -1 := by
  intro tm
  rcases tm with ⟨cs, ra⟩
  fin_cases cs <;> fin_cases ra <;> refine ⟨by decide, by decide, by decide, by decide, by decide⟩

/-- C3: Order totality and tie rule — `equal` holds exactly when `compare` is
zero; `compare` is zero exactly on equal decoded streams, `-1` exactly on
byte-lexicographically smaller decoded streams (a proper prefix — the shorter
stream — compares less), it is trichotomous, antisymmetric and transitive, so
it yields a total order on compressed values that coincides with
byte-lexicographic order on their decoded symbol streams. -/
theorem c3_order_totality :
    (∀ a b, equal_aligned_aa a b = true ↔ compare_aligned_aa a b = 0) ∧
    (∀ a b, compare_aligned_aa a b = 0 ↔ decodedOf a = decodedOf b) ∧
    (∀ a b, compare_aligned_aa a b = -1 ↔
      List.Lex (· < ·) (decodedOf a) (decodedOf b)) ∧
    (∀ a b, compare_aligned_aa a b = -1 ∨ compare_aligned_aa a b = 0 ∨
      compare_aligned_aa a b = 1) ∧
    (∀ a b, compare_aligned_aa b a = -compare_aligned_aa a b) ∧
    (∀ a b c, compare_aligned_aa a b = -1 → compare_aligned_aa b c = -1 →
      compare_aligned_aa a c = -1) ∧
    (∀ a b, decodedOf a <+: decodedOf b → decodedOf a ≠ decodedOf b →
      compare_aligned_aa a b = -1) := by
  refine ⟨fun a b => ?_, fun a b => ?_, fun a b => ?_, fun a b => ?_, fun a b => ?_,
    fun a b c hab hbc => ?_, fun a b hp hne => ?_⟩
  · unfold equal_aligned_aa compare_aligned_aa
    rw [beq_iff_eq, compareSymbols_eq_zero_iff]
  · exact compareSymbols_eq_zero_iff _ _
  · exact compareSymbols_lt_iff _ _
  · exact compareSymbols_cases _ _
  · exact compareSymbols_swap _ _
  · exact compareSymbols_trans _ _ _ hab hbc
  · rcases hp with ⟨x, hx⟩
    have hxne : x ≠ [] := by
      intro hxe
      subst hxe
      rw [List.append_nil] at hx
      exact hne hx
    unfold compare_aligned_aa
    rw [← hx]
    exact compareSymbols_append_lt hxne

/-- C3 witness: transitivity and the equality law applied at concrete
compressed values ("A" < "AC" < "C"). -/
theorem c3_order_totality_witness :
    compare_aligned_aa smpA smpC = -1 ∧
    (equal_aligned_aa smpA smpA = true ↔ compare_aligned_aa smpA smpA = 0) :=
  ⟨c3_order_totality.2.2.2.2.2.1 smpA smpAC smpC (by decide) (by decide),
    c3_order_totality.1 smpA smpA⟩

/-- C6: Reverse — on every well-formed compressed value, `reverse` succeeds,
keeps `symbol_count`, its result's `i`-th decoded symbol is the input's
`(symbol_count - 1 - i)`-th decoded symbol, and reversing again restores the
original value byte for byte. -/
theorem c6_reverse_involution {v : PB_CompressedSequence}
    (hw : aaWellFormed v = true) :
    ∃ w, aligned_aa_sequence_reverse v = .ok w ∧
      w.symbol_count = v.symbol_count ∧
      (∀ i, i < v.symbol_count →
        (decodedOf w)[i]? = (decodedOf v)[v.symbol_count - 1 - i]?) ∧
      aligned_aa_sequence_reverse w = .ok v := by
  have hd := wf_decode hw
  have henc := wf_encode hw
  have hlen := decodedOf_length hw
  have hmemrev : ∀ b ∈ (decodedOf v).reverse,
      (findCode (tableOfId v.table_id) b).isSome = true :=
    fun b hb => encode_mem_isSome _ henc b (List.mem_reverse.mp hb)
  rcases encode_total _ hmemrev with ⟨bits, hbr⟩
  have hmk := mk_wellFormed hbr
  rw [List.length_reverse, hlen] at hmk
  have hrun : aligned_aa_sequence_reverse v =
      .ok ⟨v.symbol_count, v.table_id, bits⟩ := by
    unfold aligned_aa_sequence_reverse
    rw [hd]
    show (match encodeSymbols (tableOfId v.table_id) (decodedOf v).reverse with
      | some bits =>
        Except.ok (⟨v.symbol_count, v.table_id, bits⟩ : PB_CompressedSequence)
      | none => Except.error PB_Error.CorruptHeader) = _
    rw [hbr]
  refine ⟨⟨v.symbol_count, v.table_id, bits⟩, hrun, rfl, ?_, ?_⟩
  · intro i hi
    rw [hmk.2]
    have hi' : i < (decodedOf v).length := by omega
    rw [List.getElem?_reverse hi', hlen]
  · have hd2 := wf_decode hmk.1
    have hdec2 : decodeSymbols
        (tableOfId (⟨v.symbol_count, v.table_id, bits⟩ : PB_CompressedSequence).table_id)
        v.symbol_count bits = some ((decodedOf v).reverse, []) := by
      have := hd2
      rw [hmk.2] at this
      exact this
    unfold aligned_aa_sequence_reverse
    rw [hdec2]
    show (match encodeSymbols (tableOfId v.table_id) (decodedOf v).reverse.reverse with
      | some bits =>
        Except.ok (⟨v.symbol_count, v.table_id, bits⟩ : PB_CompressedSequence)
      | none => Except.error PB_Error.CorruptHeader) = _
    rw [List.reverse_reverse, henc]

/-- C6 witness: the reverse of `compress "ABC-D"`. -/
theorem c6_reverse_involution_witness :
    aaWellFormed smpABCD = true ∧
    ∃ w, aligned_aa_sequence_reverse smpABCD = .ok w ∧
      w.symbol_count = smpABCD.symbol_count ∧
      (∀ i, i < smpABCD.symbol_count →
        (decodedOf w)[i]? = (decodedOf smpABCD)[smpABCD.symbol_count - 1 - i]?) ∧
      aligned_aa_sequence_reverse w = .ok smpABCD :=
  ⟨by decide, c6_reverse_involution (by decide)⟩

/-- C2 counterexample: the claim says `substring(compress(s, m), a+1, l)`
decodes to `s[a : a+l]`, but for `s = "m"` (byte 109), `m = {cs=0, ra=IUPAC}`,
`a = 0`, `l = 1` the substring decodes to the folded byte `"M"` (77), not to
the raw input slice `[109]`. -/
theorem c2_substring_law_cex :
    compress_aligned_aa_sequence [109] ⟨0, 0⟩ = .ok vLowM ∧
    (aligned_aa_sequence_substring vLowM 1 1).map decodedOf = .ok [77] ∧
    ¬ ([77] : List Nat) = [109] := by decide

/-- C2 (amended): substring is 1-based; for every compression result of `s`
under `m` and bounds `a + l ≤ |s|`, `substring(compress(s, m), a+1, l)`
succeeds and decodes to the case-folded slice `fold_m(s)[a : a+l]`, returned
as a new re-encoded compressed value. -/
theorem c2_substring_law {s : List Nat} {tm : PB_AlignedAaSequenceTypMod}
    {a l : Nat} {v : PB_CompressedSequence}
    (hok : compress_aligned_aa_sequence s tm = .ok v) (hal : a + l ≤ s.length) :
    ∃ w, aligned_aa_sequence_substring v ((a : Int) + 1) (l : Int) = .ok w ∧
      w.symbol_count = l ∧ w.table_id = v.table_id ∧
      decodedOf w = ((foldSeq tm s).drop a).take l := by
  rcases compress_decoded hok with ⟨hcnt, _, hwf, hdec, _⟩
  rcases substring_ok hwf (show a + l ≤ v.symbol_count by omega) with
    ⟨w, hw, hwc, hwi, _, hwd⟩
  exact ⟨w, hw, hwc, hwi, by rw [hwd, hdec]⟩

/-- C2 witness: `substring(compress "MKT--AA", 4, 2)`. -/
theorem c2_substring_law_witness :
    compress_aligned_aa_sequence [77, 75, 84, 45, 45, 65, 65] ⟨0, 0⟩ = .ok smpMKTAA ∧
    ∃ w, aligned_aa_sequence_substring smpMKTAA ((3 : Int) + 1) (2 : Int) = .ok w ∧
      w.symbol_count = 2 ∧ w.table_id = smpMKTAA.table_id ∧
      decodedOf w = ((foldSeq ⟨0, 0⟩ [77, 75, 84, 45, 45, 65, 65]).drop 3).take 2 :=
  ⟨by decide,
    @c2_substring_law [77, 75, 84, 45, 45, 65, 65] ⟨0, 0⟩ 3 2 smpMKTAA
      (by decide) (by decide)⟩

/-- C9 counterexample: the claim quantifies over every haystack and needle,
but with `h = compress "M" {cs=0}` and `n = compress "m" {cs=1}` the folded
match gives `strpos(h, n) = 1 > 0` while `substring(h, 1, |n|)` (decoding to
`"M"`) is not equal to `n` (decoding to `"m"`), so `strpos(h,n) = k > 0` does
not imply `substring(h, k, |n|) == n`. -/
theorem c9_strpos_law_cex :
    strpos_aligned_aa hUpM nLowM = 1 ∧
    (aligned_aa_sequence_substring hUpM 1
        (aligned_aa_sequence_char_length nLowM : Int)).map
      (fun w => equal_aligned_aa w nLowM) = .ok false := by decide

/-- C9 (amended): for values produced by `compress` whose modifiers agree on
case sensitivity, `strpos(h, n) = k + 1` means the needle's decoded stream
occurs at 0-based position `k` of the haystack's decoded stream and at no
earlier position, and `substring(h, k+1, |n|)` is `equal` to `n`; while
`strpos(h, n) = 0` means the needle's decoded stream occurs nowhere. -/
theorem c9_strpos_law {s t : List Nat} {tm tm' : PB_AlignedAaSequenceTypMod}
    {h n : PB_CompressedSequence}
    (hok : compress_aligned_aa_sequence s tm = .ok h)
    (hok' : compress_aligned_aa_sequence t tm' = .ok n)
    (hcs : tm.case_sensitive = tm'.case_sensitive) :
    (∀ k, strpos_aligned_aa h n = k + 1 →
      (aligned_aa_sequence_substring h ((k : Int) + 1)
          (aligned_aa_sequence_char_length n : Int)).map
        (fun w => equal_aligned_aa w n) = .ok true ∧
      decodedOf n <+: (decodedOf h).drop k ∧
      ∀ j, j < k → ¬ decodedOf n <+: (decodedOf h).drop j) ∧
    (strpos_aligned_aa h n = 0 →
      ∀ i, ¬ decodedOf n <+: (decodedOf h).drop i) := by
  rcases compress_decoded hok with ⟨hcnt, hid, hwf, hdec, _⟩
  rcases compress_decoded hok' with ⟨hcnt', hid', hwf', hdec', _⟩
  have hns : (if h.table_id % 2 = 0 then (decodedOf n).map foldByte else decodedOf n)
      = decodedOf n := by
    rw [hid, tableIdOf_parity]
    by_cases hc0 : tm.case_sensitive.val = 0
    · rw [if_pos hc0, hdec']
      have hc0' : tm'.case_sensitive.val = 0 := by rw [← hcs]; exact hc0
      exact foldSeq_fold_map hc0' t
    · rw [if_neg hc0]
  have hsp : strpos_aligned_aa h n = strposAux (decodedOf n) (decodedOf h) 0 := by
    unfold strpos_aligned_aa
    rw [hns]
  constructor
  · intro k hk
    rw [hsp] at hk
    rcases strposAux_succ (decodedOf h) (decodedOf n) 0 k hk with
      ⟨_, hbound, hfound, hmin⟩
    rw [Nat.sub_zero] at hbound hfound hmin
    have hlenn := decodedOf_length hwf'
    have hlenh := decodedOf_length hwf
    rcases hfound with ⟨tail, htail⟩
    have hle : k + n.symbol_count ≤ h.symbol_count := by
      have hlt := congrArg List.length htail
      simp only [List.length_append, List.length_drop] at hlt
      omega
    rcases substring_ok hwf hle with ⟨w, hw, hwc, hwi, hwwf, hwd⟩
    refine ⟨?_, ⟨tail, htail⟩, fun j hj => hmin j hj⟩
    show (aligned_aa_sequence_substring h ((k : Int) + 1)
        ((n.symbol_count : Nat) : Int)).map
      (fun w => equal_aligned_aa w n) = .ok true
    rw [hw]
    show Except.ok (equal_aligned_aa w n) = Except.ok true
    have hweq : decodedOf w = decodedOf n := by
      rw [hwd, ← htail, ← hlenn]
      exact List.take_left _ _
    unfold equal_aligned_aa
    rw [hweq, beq_self_eq_true]
  · intro h0
    rw [hsp] at h0
    exact strposAux_zero (decodedOf h) (decodedOf n) 0 h0

/-- C9 witness: `strpos(compress "MKTAAAG--M", compress "AAG") = 5` and
`substring(_, 5, 3)` equals the needle. -/
theorem c9_strpos_law_witness :
    compress_aligned_aa_sequence [77, 75, 84, 65, 65, 65, 71, 45, 45, 77] ⟨0, 0⟩ =
      .ok hStrHay ∧
    compress_aligned_aa_sequence [65, 65, 71] ⟨0, 0⟩ = .ok nStrNee ∧
    strpos_aligned_aa hStrHay nStrNee = 5 ∧
    ((aligned_aa_sequence_substring hStrHay ((4 : Int) + 1)
        (aligned_aa_sequence_char_length nStrNee : Int)).map
      (fun w => equal_aligned_aa w nStrNee) = .ok true ∧
      decodedOf nStrNee <+: (decodedOf hStrHay).drop 4 ∧
      ∀ j, j < 4 → ¬ decodedOf nStrNee <+: (decodedOf hStrHay).drop j) :=
  ⟨by decide, by decide, by decide,
    (@c9_strpos_law [77, 75, 84, 65, 65, 65, 71, 45, 45, 77] [65, 65, 71]
      ⟨0, 0⟩ ⟨0, 0⟩ hStrHay nStrNee (by decide) (by decide) (by decide)).1 4
      (by decide)⟩
